import Mathlib

set_option maxHeartbeats 1000000
set_option maxRecDepth 4000

/-!
Shallow embedding of logue.py (terminal logbook).  Strings are modelled as
Lean strings, character scanning happens on the underlying character
lists.  Python regular-expression behaviour for the two fixed patterns used
by the program is modelled by explicit left-to-right scanners whose
behaviour is derived from the leftmost-match, greedy-with-backtracking
semantics of Python's re module.  Machine integers do not occur (Python
integers are unbounded; all quantities here are natural numbers).
-/

namespace Logue

/-- ASCII whitespace, the characters matched by Python's regex whitespace
class and stripped by str.strip for the ASCII inputs produced by the
single-line editor (codes 9-13 and 32).  Non-ASCII whitespace cannot occur
in editor input, which only admits character codes 32-126. -/
def isSpace (c : Char) : Bool := c.toNat = 32 || (9 ≤ c.toNat && c.toNat ≤ 13)

/-- Characters other than LF (10) and CR (13): the character class of the
task-capture regex, which matches any character except a line break. -/
def nonNL (c : Char) : Bool := !(c.toNat = 10 || c.toNat = 13)

/-- ASCII word characters, Python's regex word class for the ASCII inputs
the editor can produce: letters, digits and underscore. -/
def isWord (c : Char) : Bool :=
  (48 ≤ c.toNat && c.toNat ≤ 57) || (65 ≤ c.toNat && c.toNat ≤ 90) ||
  (97 ≤ c.toNat && c.toNat ≤ 122) || c.toNat = 95

/-- Line-boundary characters of Python str.splitlines: LF, CR (CRLF counts
as one boundary), VT, FF, FS, GS, RS, NEL, LINE SEPARATOR, PARA SEPARATOR. -/
def isLineBreak (c : Char) : Bool :=
  c.toNat = 10 || c.toNat = 13 || c.toNat = 11 || c.toNat = 12 ||
  c.toNat = 28 || c.toNat = 29 || c.toNat = 30 || c.toNat = 133 ||
  c.toNat = 8232 || c.toNat = 8233

/-- str.lstrip: drop leading whitespace. -/
def lstripL (s : List Char) : List Char := s.dropWhile isSpace

/-- str.rstrip: drop trailing whitespace (recursive formulation). -/
def rstripL : List Char → List Char
  | [] => []
  | c :: s =>
    match rstripL s with
    | [] => if isSpace c then [] else [c]
    | r => c :: r

/-- str.strip: drop whitespace at both ends. -/
def stripL (s : List Char) : List Char := rstripL (lstripL s)

/-- str.strip on Lean strings. -/
def stripS (s : String) : String := String.mk (stripL s.toList)

/-- str.lower for the ASCII text handled by the program. -/
def lowerS (s : String) : String := String.mk (s.toList.map Char.toLower)

/-- str.splitlines worker: acc holds the current line reversed; a CR
followed by LF consumes both. -/
def splitlinesAux (acc : List Char) : List Char → List (List Char)
  | [] => if acc.isEmpty then [] else [acc.reverse]
  | [c] =>
    if c.toNat = 13 then [acc.reverse]
    else if isLineBreak c then acc.reverse :: splitlinesAux [] []
    else splitlinesAux (c :: acc) []
  | c :: d :: rest =>
    if c.toNat = 13 then
      if d.toNat = 10 then acc.reverse :: splitlinesAux [] rest
      else acc.reverse :: splitlinesAux [] (d :: rest)
    else if isLineBreak c then acc.reverse :: splitlinesAux [] (d :: rest)
    else splitlinesAux (c :: acc) (d :: rest)

/-- str.splitlines. -/
def splitlinesL (s : List Char) : List (List Char) := splitlinesAux [] s

/-- Join a list of lines with a newline character, as in a str.join call
with separator LF. -/
def joinNL : List (List Char) → List Char
  | [] => []
  | [l] => l
  | l :: ls => l ++ '\n' :: joinNL ls

/-- The post-processing applied to the cleaned text in
extract_tasks_and_clean_text: split into lines, drop blank lines, strip
each remaining line on the right, rejoin with LF, strip the whole. -/
def cleanLinesL (s : List Char) : List Char :=
  stripL (joinNL (((splitlinesL s).filter (fun ln => !(stripL ln).isEmpty)).map rstripL))

/-- One attempted match of the task regex immediately after a star: the
regex continues with a greedy whitespace run followed by a non-empty
greedy run of non-line-break characters.  With backtracking this
succeeds exactly when some character after the star is not LF or CR;
the whitespace run ends at the last position from which a non-line-break
character follows, the capture is the maximal non-line-break run from
there, and the remainder of the input follows the capture.  Returns the
capture and the characters after the whole match. -/
def matchAfterStar (r : List Char) : Option (List Char × List Char) :=
  if (r.dropWhile isSpace).isEmpty then
    match r.reverse.dropWhile (fun c => !nonNL c) with
    | [] => none
    | c :: _ => some ([c], (r.reverse.takeWhile (fun c => !nonNL c)).reverse)
  else
    some ((r.dropWhile isSpace).takeWhile nonNL,
          (r.dropWhile isSpace).drop ((r.dropWhile isSpace).takeWhile nonNL).length)

/-- Left-to-right scan implementing both re.findall and re.sub for the
task pattern (star, optional whitespace, non-empty non-line-break run),
written with a fuel argument so that the recursion is structural; the
rest of a match never exceeds the scanned suffix, so the wrapper below
instantiates the fuel with the input length and the scan always
completes. -/
def scanStarsF : Nat → List Char → List (List Char) × List Char
  | 0, s => ([], s)
  | _ + 1, [] => ([], [])
  | fuel + 1, c :: rest =>
    if c = '*' then
      match matchAfterStar rest with
      | some (cap, after) =>
        let p := scanStarsF fuel after
        (cap :: p.1, p.2)
      | none =>
        let p := scanStarsF fuel rest
        (p.1, c :: p.2)
    else
      let p := scanStarsF fuel rest
      (p.1, c :: p.2)

/-- The scan of a whole input: the list of captures and the input with
every match removed. -/
def scanStars (s : List Char) : List (List Char) × List Char := scanStarsF s.length s

/-- extract_tasks_and_clean_text from logue.py: captures of the task
pattern, stripped, with whitespace-only captures dropped, together with
the text with every match removed and blank lines collapsed. -/
def extract_tasks_and_clean_text (text : String) : List String × String :=
  let p := scanStars text.toList
  (((p.1.map stripL).filter (fun l => !l.isEmpty)).map String.mk,
   String.mk (cleanLinesL p.2))

/-- Scanner implementing re.findall for the tag pattern (hash sign
followed by a non-empty greedy word-character run); scanning resumes
after each match. -/
def tagScanF : Nat → List Char → List (List Char)
  | 0, _ => []
  | _ + 1, [] => []
  | fuel + 1, c :: rest =>
    if c = '#' then
      if (rest.takeWhile isWord).isEmpty then tagScanF fuel rest
      else rest.takeWhile isWord :: tagScanF fuel (rest.drop (rest.takeWhile isWord).length)
    else tagScanF fuel rest

/-- The tag scan of a whole input (the suffix after a match never
exceeds the scanned suffix, so length-many steps of fuel suffice). -/
def tagScan (s : List Char) : List (List Char) := tagScanF s.length s

/-- extract_tags from logue.py: each hash-word occurrence, lowercased. -/
def extract_tags (text : String) : List String :=
  (tagScan text.toList).map (fun w => String.mk (w.map Char.toLower))

/-- One logbook entry as stored in the record file. -/
structure Entry where
  timestamp : String
  text : String
  tags : List String
  location : String
deriving DecidableEq, Repr

/-- The task mapping: day key to ordered task list, insertion order of
keys preserved (a Python dict). -/
def TasksMap : Type := List (String × List String)

instance : DecidableEq TasksMap := by
  unfold TasksMap
  infer_instance

/-- Dictionary lookup in the task mapping. -/
def tasks_lookup : TasksMap → String → Option (List String)
  | [], _ => none
  | (k, v) :: rest, d => if k = d then some v else tasks_lookup rest d

/-- tasks_for_date from logue.py: tasks_map.get(date_str, []). -/
def tasks_for_date (m : TasksMap) (d : String) : List String :=
  (tasks_lookup m d).getD []

/-- dict.setdefault(date, []).append(task): append into the bucket of the
given key, creating the bucket at the end when the key is new. -/
def addToBucket : TasksMap → String → String → TasksMap
  | [], d, t => [(d, [t])]
  | (k, v) :: rest, d, t =>
    if k = d then (k, v ++ [t]) :: rest else (k, v) :: addToBucket rest d t

/-- add_task_for_date from logue.py: an empty task string is a no-op. -/
def add_task_for_date (m : TasksMap) (d : String) (t : String) : TasksMap :=
  if t = "" then m else addToBucket m d t

/-- SWITCH_FOCUS_TOKEN from logue.py. -/
def SWITCH_FOCUS_TOKEN : String := "__SWITCH_FOCUS__"

/-- The tag list attached to a committed entry: the extracted tags with
each session location tag appended when not already present. -/
def commit_tags (note : String) (location_tags : List String) : List String :=
  location_tags.foldl (fun acc lt => if lt ∈ acc then acc else acc ++ [lt])
    (extract_tags note)

/-- Result of one commit iteration of the interactive loop. -/
structure CommitResult where
  entries : List Entry
  tasks : TasksMap
  saved : Bool
deriving DecidableEq

/-- The commit tail of one main-loop iteration of interactive_mode, given
the string returned by the editor: the switch-focus token and the empty
string mutate nothing and skip persistence; otherwise tasks and cleaned
text are extracted, an entry is appended only when the cleaned text is
non-empty (and non-whitespace), each task is filed under the session's
tomorrow key, and save_data runs unconditionally. -/
def commitStep (entries : List Entry) (tasks_map : TasksMap) (note : String)
    (now_exact : String) (tomorrow_str : String) (location : String)
    (location_tags : List String) : CommitResult :=
  if note = SWITCH_FOCUS_TOKEN then ⟨entries, tasks_map, false⟩
  else if note = "" then ⟨entries, tasks_map, false⟩
  else
    let tc := extract_tasks_and_clean_text note
    let tags := commit_tags note location_tags
    let entries' :=
      if tc.2 ≠ "" ∧ stripS tc.2 ≠ "" then
        entries ++ [⟨now_exact, tc.2, tags, location⟩]
      else entries
    let tasks_map' := tc.1.foldl (fun m t => add_task_for_date m tomorrow_str t) tasks_map
    ⟨entries', tasks_map', true⟩

/-- A calendar date (proleptic Gregorian, as in Python datetime.date). -/
structure Date where
  y : Nat
  m : Nat
  d : Nat
deriving DecidableEq, Repr

/-- Gregorian leap-year rule. -/
def isLeap (y : Nat) : Bool := y % 4 = 0 && (!(y % 100 = 0) || y % 400 = 0)

/-- Days in a month. -/
def daysInMonth (y m : Nat) : Nat :=
  if m = 2 then (if isLeap y then 29 else 28)
  else if m = 4 ∨ m = 6 ∨ m = 9 ∨ m = 11 then 30
  else 31

/-- The following calendar day (today + timedelta(days=1)). -/
def nextDay (dt : Date) : Date :=
  if dt.d < daysInMonth dt.y dt.m then ⟨dt.y, dt.m, dt.d + 1⟩
  else if dt.m < 12 then ⟨dt.y, dt.m + 1, 1⟩
  else ⟨dt.y + 1, 1, 1⟩

/-- Zero-padded two-digit decimal field of strftime. -/
def pad2 (n : Nat) : String := if n < 10 then "0" ++ toString n else toString n

/-- The year field of strftime: CPython delegates the %Y directive to the
C library, and glibc prints the year unpadded (so year 1 prints as 1, not
0001); every year the program itself generates has four digits, where the
two renderings agree. -/
def yearStr (n : Nat) : String := toString n

/-- strftime with the day-key format: year, month, day joined by
underscores. -/
def dayKeyOfDate (dt : Date) : String :=
  yearStr dt.y ++ "_" ++ pad2 dt.m ++ "_" ++ pad2 dt.d

/-- Cumulative days before the given month in the given year. -/
def daysBeforeMonth (y m : Nat) : Nat :=
  ([0, 31, 59, 90, 120, 151, 181, 212, 243, 273, 304, 334].getD (m - 1) 0) +
    (if 3 ≤ m ∧ isLeap y then 1 else 0)

/-- date.toordinal of Python: day 1 is January 1 of year 1. -/
def toOrdinal (dt : Date) : Nat :=
  365 * (dt.y - 1) + (dt.y - 1) / 4 - (dt.y - 1) / 100 + (dt.y - 1) / 400 +
    daysBeforeMonth dt.y dt.m + dt.d

/-- date.weekday of Python: 0 is Monday. -/
def weekdayIdx (dt : Date) : Nat := (toOrdinal dt - 1) % 7

/-- strftime %A name for a weekday index. -/
def weekdayNameOf (i : Nat) : String :=
  if i = 0 then "Monday"
  else if i = 1 then "Tuesday"
  else if i = 2 then "Wednesday"
  else if i = 3 then "Thursday"
  else if i = 4 then "Friday"
  else if i = 5 then "Saturday"
  else "Sunday"

/-- strftime %A of a date. -/
def weekdayName (dt : Date) : String := weekdayNameOf (weekdayIdx dt)

/-- A date plus seconds since midnight (second precision, as in the
program's timestamps). -/
structure DateTime where
  date : Date
  secs : Nat
deriving DecidableEq, Repr

/-- strftime with the time format: hours, minutes, seconds joined by
colons. -/
def fmtHMS (secs : Nat) : String :=
  pad2 (secs / 3600) ++ ":" ++ pad2 (secs % 3600 / 60) ++ ":" ++ pad2 (secs % 60)

/-- strftime with the timestamp format used by the program: day key plus
underscored time fields. -/
def tsOf (dt : DateTime) : String :=
  dayKeyOfDate dt.date ++ "_" ++ pad2 (dt.secs / 3600) ++ "_" ++
    pad2 (dt.secs % 3600 / 60) ++ "_" ++ pad2 (dt.secs % 60)

/-- datetime addition of a whole number of hours, with day rollover. -/
def dtAddHours (dt : DateTime) (h : Nat) : DateTime :=
  ⟨nextDay^[(dt.secs + h * 3600) / 86400] dt.date, (dt.secs + h * 3600) % 86400⟩

/-- List prefix test on characters (str.startswith). -/
def isPre : List Char → List Char → Bool
  | [], _ => true
  | _ :: _, [] => false
  | a :: as, b :: bs => a = b && isPre as bs

/-- The clock-in block of interactive_mode: when no entry with non-blank
text exists for the current day, one clock-in entry is appended stating
the start time and an end time 9 hours later on Monday and Tuesday and 8
hours later otherwise, tagged with the location tags, and save_data runs;
otherwise nothing happens.  The Boolean reports whether save_data ran. -/
def clock_in_step (entries : List Entry) (now : DateTime) (location : String)
    (location_tags : List String) : List Entry × Bool :=
  let today_str := dayKeyOfDate now.date
  let day_of_week := weekdayName now.date
  let deltaH : Nat :=
    if lowerS day_of_week = "monday" ∨ lowerS day_of_week = "tuesday" then 9 else 8
  let today_entries := entries.filter
    (fun e => isPre today_str.toList e.timestamp.toList && decide (stripS e.text ≠ ""))
  if today_entries.isEmpty then
    (entries ++ [⟨tsOf now,
      "Clock-In at " ++ fmtHMS now.secs ++ ". Clock out at " ++
        fmtHMS (dtAddHours now deltaH).secs,
      location_tags, location⟩], true)
  else (entries, false)

/-- Decimal value of an ASCII digit. -/
def digitVal (c : Char) : Option Nat :=
  if 48 ≤ c.toNat ∧ c.toNat ≤ 57 then some (c.toNat - 48) else none

/-- The strptime %Y directive: exactly four digits. -/
def parseYear4 : List Char → Option (Nat × List Char)
  | a :: b :: c :: d :: rest => do
    let w ← digitVal a
    let x ← digitVal b
    let y ← digitVal c
    let z ← digitVal d
    return (w * 1000 + x * 100 + y * 10 + z, rest)
  | _ => none

/-- The two-digit-or-one-digit numeric strptime directives (%m, %d, %H,
%M, %S).  Their regex classes admit a two-digit form within the bounds
twoLo..twoHi and a one-digit form at least oneLo.  Every format used by
the program follows such a field by a non-digit literal or the end of the
input, so the maximal-munch reading used here agrees with the regex
backtracking of _strptime. -/
def parseNum2or1 (twoLo twoHi oneLo : Nat) (s : List Char) : Option (Nat × List Char) :=
  match s with
  | a :: b :: rest =>
    match digitVal a, digitVal b with
    | some x, some y =>
      if twoLo ≤ 10 * x + y ∧ 10 * x + y ≤ twoHi then some (10 * x + y, rest)
      else if oneLo ≤ x then some (x, b :: rest)
      else none
    | some x, none => if oneLo ≤ x then some (x, b :: rest) else none
    | none, _ => none
  | [a] =>
    match digitVal a with
    | some x => if oneLo ≤ x then some (x, []) else none
    | none => none
  | [] => none

/-- A literal separator character in a strptime format. -/
def parseLit (c : Char) : List Char → Option (List Char)
  | x :: rest => if x = c then some rest else none
  | [] => none

/-- The date validation performed by the datetime constructor after the
format regex matched: the year is at least 1 and the day exists in the
month (month and day bounds below 13 and 32 are already enforced by the
regex classes). -/
def mkValidDate (y m d : Nat) : Option Date :=
  if 1 ≤ y ∧ 1 ≤ m ∧ m ≤ 12 ∧ 1 ≤ d ∧ d ≤ daysInMonth y m then some ⟨y, m, d⟩
  else none

/-- strptime of a date-only format with the given two separators. -/
def parseDateFields (sep1 sep2 : Char) (s : List Char) : Option (Date × List Char) := do
  let (y, s) ← parseYear4 s
  let s ← parseLit sep1 s
  let (m, s) ← parseNum2or1 1 12 1 s
  let s ← parseLit sep2 s
  let (d, s) ← parseNum2or1 1 31 1 s
  let dt ← mkValidDate y m d
  return (dt, s)

/-- strptime of a time-of-day with the given two separators. -/
def parseTimeFields (sep1 sep2 : Char) (s : List Char) : Option (Nat × List Char) := do
  let (h, s) ← parseNum2or1 0 23 0 s
  let s ← parseLit sep1 s
  let (mi, s) ← parseNum2or1 0 59 0 s
  let s ← parseLit sep2 s
  let (sec, s) ← parseNum2or1 0 59 0 s
  return (h * 3600 + mi * 60 + sec, s)

/-- strptime with a date-only format, requiring the whole string to be
consumed, as _strptime does. -/
def strptimeDateOnly (sep1 sep2 : Char) (ts : List Char) : Option Date :=
  match parseDateFields sep1 sep2 ts with
  | some (dt, []) => some dt
  | _ => none

/-- strptime with a full date-time format, requiring the whole string to
be consumed; only the date part is kept, as in the source. -/
def strptimeDT (dsep1 dsep2 mid tsep1 tsep2 : Char) (ts : List Char) : Option Date :=
  match parseDateFields dsep1 dsep2 ts with
  | some (dt, rest) =>
    match parseLit mid rest with
    | some rest2 =>
      match parseTimeFields tsep1 tsep2 rest2 with
      | some (_, []) => some dt
      | _ => none
    | none => none
  | none => none

/-- _parse_timestamp_to_date from logue.py: try the five known formats in
order, then fall back to the first ten characters with dashes replaced
by underscores. -/
def _parse_timestamp_to_date (ts : String) : Option Date :=
  if ts = "" then none
  else
    (strptimeDT '_' '_' '_' '_' '_' ts.toList) <|>
    (strptimeDT '-' '-' 'T' ':' ':' ts.toList) <|>
    (strptimeDT '-' '-' ' ' ':' ':' ts.toList) <|>
    (strptimeDateOnly '_' '_' ts.toList) <|>
    (strptimeDateOnly '-' '-' ts.toList) <|>
    (strptimeDateOnly '_' '_'
      ((ts.toList.take 10).map (fun c => if c = '-' then '_' else c)))

/-- Comparison of dates as Python compares date objects:
lexicographically by year, month, day. -/
def dateLeB (a b : Date) : Bool :=
  if a.y ≠ b.y then Nat.blt a.y b.y
  else if a.m ≠ b.m then Nat.blt a.m b.m
  else Nat.ble a.d b.d

/-- Comparison of strings as Python compares str values:
lexicographically by code point. -/
def strLeB (a b : String) : Bool := decide (a ≤ b)

/-- Stable descending insertion: the new element goes after every
element whose key is at least its own.  Folding a list through this
reproduces a stable descending sort, the order produced by Python
sorted with reverse set. -/
def insertDescBy (key : α → β) (leB : β → β → Bool) (x : α) : List α → List α
  | [] => [x]
  | y :: ys =>
    if leB (key x) (key y) then y :: insertDescBy key leB x ys else x :: y :: ys

/-- Stable descending sort by a key (list.sort with a key and reverse
set, or sorted with reverse set). -/
def sortDescBy (key : α → β) (leB : β → β → Bool) (l : List α) : List α :=
  l.foldl (fun acc x => insertDescBy key leB x acc) []

/-- dict.setdefault(day, []).append(e) over entry buckets: insertion
order of keys preserved. -/
def addEntryBucket : List (String × List Entry) → String → Entry → List (String × List Entry)
  | [], k, e => [(k, [e])]
  | (k', es) :: rest, k, e =>
    if k' = k then (k', es ++ [e]) :: rest else (k', es) :: addEntryBucket rest k e

/-- The bucket key of one entry: the day of its parsed timestamp, or the
sentinel "unknown". -/
def dayOfEntry (e : Entry) : String :=
  match _parse_timestamp_to_date e.timestamp with
  | none => "unknown"
  | some dt => dayKeyOfDate dt

/-- day_sort_key from group_entries_by_day: "unknown" and every
unparseable day key map to the minimal date. -/
def day_sort_key (dayKey : String) : Date :=
  if dayKey = "unknown" then ⟨1, 1, 1⟩
  else
    match strptimeDateOnly '_' '_' dayKey.toList with
    | some dt => dt
    | none => ⟨1, 1, 1⟩

/-- group_entries_by_day from logue.py: bucket entries by day in first
occurrence order, sort each bucket newest first by timestamp string,
then sort the buckets newest day first by parsed day key. -/
def group_entries_by_day (entries : List Entry) : List (String × List Entry) :=
  let buckets := entries.foldl (fun bs e => addEntryBucket bs (dayOfEntry e) e) []
  let buckets := buckets.map (fun kv => (kv.1, sortDescBy Entry.timestamp strLeB kv.2))
  sortDescBy (fun kv => day_sort_key kv.1) dateLeB buckets

/-- A JSON value as produced by json.load. -/
inductive Json where
  | null
  | bool (b : Bool)
  | num (n : Int)
  | str (s : String)
  | arr (elems : List Json)
  | obj (fields : List (String × Json))

/-- What the log file can present to load_data: absent, unreadable or
unparseable (json.load raising), or parsed into a value. -/
inductive LoadSource where
  | missing
  | unreadable
  | parsed (v : Json)

/-- The collections load_data returns together with whether it reported
a load error on the error stream. -/
structure LoadResult where
  entries : Json
  tasks : Json
  errorReported : Bool

/-- dict.get with a default on a parsed JSON object. -/
def jsonGetD (fields : List (String × Json)) (k : String) (dflt : Json) : Json :=
  match fields with
  | [] => dflt
  | (k', v) :: rest => if k' = k then v else jsonGetD rest k dflt

/-- load_data from logue.py: a missing file yields empty collections
silently; an unreadable or unparseable file yields empty collections and
prints an error; a parsed dict yields its entries and tasks values with
empty defaults; any other parsed value (including a legacy bare array of
entries) yields empty collections silently. -/
def load_data : LoadSource → LoadResult
  | .missing => ⟨Json.arr [], Json.obj [], false⟩
  | .unreadable => ⟨Json.arr [], Json.obj [], true⟩
  | .parsed v =>
    match v with
    | Json.obj fields =>
      ⟨jsonGetD fields "entries" (Json.arr []), jsonGetD fields "tasks" (Json.obj []), false⟩
    | _ => ⟨Json.arr [], Json.obj [], false⟩

/-- The four catalogue navigation commands of the claim. -/
inductive NavCmd where
  | up
  | down
  | pageUp
  | pageDown
deriving DecidableEq, Repr

/-- The page jump of the catalogue loop: max(1, height - 4). -/
def nav_jump (height : Nat) : Nat := max 1 (height - 4)

/-- One navigation keystroke of the catalogue loop acting on the
selected index.  Python's max(0, x) on possibly negative differences is
truncated natural subtraction here. -/
def nav_step (dayCount jump : Nat) (sel : Nat) : NavCmd → Nat
  | .up => if 0 < sel then sel - 1 else sel
  | .down => if sel < dayCount - 1 then sel + 1 else sel
  | .pageDown => min (dayCount - 1) (sel + jump)
  | .pageUp => sel - jump

/-- A sequence of navigation commands folded over the selection. -/
def nav_run (dayCount jump sel0 : Nat) (cmds : List NavCmd) : Nat :=
  cmds.foldl (nav_step dayCount jump) sel0

/-- The viewport top computed for a selection: centre the selection when
possible, clamped so the window never runs past the end of the list
(max(0, min(sel - h / 2, max(0, dayCount - h))) in the source, with
truncated subtraction standing for max(0, _)). -/
def top_of (h dayCount sel : Nat) : Nat := min (sel - h / 2) (dayCount - h)

/-- State of the single-line editor: buffer, cursor position inside
[0, length],  horizontal scroll offset. -/
structure EdState where
  buffer : List Char
  cursor : Nat
  scroll : Nat
deriving DecidableEq, Repr

/-- The outcome of feeding one keystroke to the editor. -/
inductive EdResult where
  | committed (s : String)
  | cancelled
  | switchFocus
  | next (st : EdState)
deriving DecidableEq, Repr

/-- curses key codes used by the editor (ncurses values). -/
def KEY_BACKSPACE : Int := 263

/-- curses KEY_LEFT. -/
def KEY_LEFT : Int := 260

/-- curses KEY_RIGHT. -/
def KEY_RIGHT : Int := 261

/-- curses KEY_F2. -/
def KEY_F2 : Int := 266

/-- The width of the visible window: max(1, max_width). -/
def ed_loop_visible (w : Nat) : Nat := max 1 w

/-- The scroll adjustment at the top of the editor loop: snap to the
cursor when it lies left of the window, else snap so the cursor is the
last visible column when it lies right of it. -/
def adjust_scroll (visible : Nat) (st : EdState) : EdState :=
  if st.cursor < st.scroll then ⟨st.buffer, st.cursor, st.cursor⟩
  else if st.scroll + visible - 1 < st.cursor then
    ⟨st.buffer, st.cursor, st.cursor - (visible - 1)⟩
  else st

/-- One iteration of get_singleline_input: dispatch on the keystroke as
the source does (Enter commits the stripped buffer, Escape cancels,
backspace deletes before the cursor, arrows move within bounds, Tab or
F2 switches focus, printable ASCII inserts at the cursor, anything else
is ignored), then let the next loop turn re-establish cursor visibility. -/
def ed_process (w : Nat) (ch : Int) (st : EdState) : EdResult :=
  if ch = 10 ∨ ch = 13 then EdResult.committed (stripS (String.mk st.buffer))
  else if ch = 27 then EdResult.cancelled
  else if ch = 8 ∨ ch = 127 ∨ ch = KEY_BACKSPACE then
    if 0 < st.cursor then
      EdResult.next (adjust_scroll (ed_loop_visible w)
        ⟨st.buffer.eraseIdx (st.cursor - 1), st.cursor - 1, st.scroll⟩)
    else EdResult.next (adjust_scroll (ed_loop_visible w) st)
  else if ch = KEY_LEFT ∧ 0 < st.cursor then
    EdResult.next (adjust_scroll (ed_loop_visible w) ⟨st.buffer, st.cursor - 1, st.scroll⟩)
  else if ch = KEY_RIGHT ∧ st.cursor < st.buffer.length then
    EdResult.next (adjust_scroll (ed_loop_visible w) ⟨st.buffer, st.cursor + 1, st.scroll⟩)
  else if ch = 9 ∨ ch = KEY_F2 then EdResult.switchFocus
  else if 32 ≤ ch ∧ ch ≤ 126 then
    EdResult.next (adjust_scroll (ed_loop_visible w)
      ⟨st.buffer.insertIdx st.cursor (Char.ofNat ch.toNat), st.cursor + 1, st.scroll⟩)
  else EdResult.next (adjust_scroll (ed_loop_visible w) st)

/-- The keystrokes the editor reacts to; everything else is ignored. -/
def recognizedKey (ch : Int) : Bool :=
  ch = 10 || ch = 13 || ch = 27 || ch = 8 || ch = 127 || ch = KEY_BACKSPACE ||
  ch = KEY_LEFT || ch = KEY_RIGHT || ch = 9 || ch = KEY_F2 ||
  (decide (32 ≤ ch) && decide (ch ≤ 126))

/-- All characters of a string lie in the printable ASCII range 32..126,
the only characters the single-line editor ever inserts, hence the only
characters a committed note can contain. -/
def PrintableS (s : String) : Prop := ∀ c ∈ s.toList, 32 ≤ c.toNat ∧ c.toNat ≤ 126

instance (s : String) : Decidable (PrintableS s) := by
  unfold PrintableS
  infer_instance

theorem dropWhile_idem (p : α → Bool) (l : List α) :
    (l.dropWhile p).dropWhile p = l.dropWhile p := by
  induction l with
  | nil => rfl
  | cons c s ih =>
    by_cases h : p c
    · simp [List.dropWhile_cons, h, ih]
    · simp [List.dropWhile_cons, h]

theorem mem_takeWhile_sat (p : α → Bool) (l : List α) (a : α)
    (h : a ∈ l.takeWhile p) : p a = true := by
  induction l with
  | nil => simp [List.takeWhile] at h
  | cons c s ih =>
    rw [List.takeWhile_cons] at h
    by_cases hc : p c
    · simp [hc] at h
      rcases h with h | h
      · rwa [h]
      · exact ih h
    · simp [hc] at h

theorem takeWhile_eq_self_of_sat (p : α → Bool) (l : List α)
    (h : ∀ a ∈ l, p a = true) : l.takeWhile p = l := by
  induction l with
  | nil => rfl
  | cons c s ih =>
    rw [List.takeWhile_cons, h c (by simp)]
    simp only [ite_true]
    rw [ih (fun a ha => h a (by simp [ha]))]

theorem rstripL_cons_of_nil (b : Char) (s : List Char) (h : rstripL s = []) :
    rstripL (b :: s) = if isSpace b then [] else [b] := by
  rw [rstripL, h]

theorem rstripL_cons_of_ne (b : Char) (s : List Char) (h : rstripL s ≠ []) :
    rstripL (b :: s) = b :: rstripL s := by
  rw [rstripL]
  rcases hr : rstripL s with _ | ⟨r, rs⟩
  · exact absurd hr h
  · rfl

theorem rstripL_append_space (u : List Char) (c : Char) (hc : isSpace c = true) :
    rstripL (u ++ [c]) = rstripL u := by
  induction u with
  | nil => simp [rstripL, hc]
  | cons b s ih =>
    show rstripL (b :: (s ++ [c])) = rstripL (b :: s)
    rw [rstripL, rstripL, ih]

theorem rstripL_append_nonspace (u : List Char) (c : Char) (hc : isSpace c = false) :
    rstripL (u ++ [c]) = u ++ [c] := by
  induction u with
  | nil => simp [rstripL, hc]
  | cons b s ih =>
    show rstripL (b :: (s ++ [c])) = b :: (s ++ [c])
    rw [rstripL, ih]
    cases s <;> simp

theorem rstripL_eq_nil_iff (s : List Char) :
    rstripL s = [] ↔ ∀ c ∈ s, isSpace c = true := by
  induction s with
  | nil => simp [rstripL]
  | cons b s ih =>
    by_cases h : rstripL s = []
    · rw [rstripL_cons_of_nil b s h]
      by_cases hb : isSpace b = true
      · simp only [hb, if_true]
        constructor
        · intro _ c hc
          rcases List.mem_cons.mp hc with hc | hc
          · rw [hc]
            exact hb
          · exact (ih.mp h) c hc
        · intro _
          trivial
      · simp only [hb, if_false]
        constructor
        · intro hx
          cases hx
        · intro hall
          exact absurd (hall b (by simp)) hb
    · rw [rstripL_cons_of_ne b s h]
      constructor
      · intro hx
        cases hx
      · intro hall
        exact absurd (ih.mpr (fun c hc => hall c (by simp [hc]))) h

theorem exists_rstripL_decomp (s : List Char) :
    ∃ t, s = rstripL s ++ t ∧ ∀ c ∈ t, isSpace c = true := by
  induction s with
  | nil => exact ⟨[], rfl, by simp⟩
  | cons b s ih =>
    obtain ⟨t, hdec, hsp⟩ := ih
    by_cases h : rstripL s = []
    · rw [rstripL_cons_of_nil b s h]
      rw [h] at hdec
      simp only [List.nil_append] at hdec
      by_cases hb : isSpace b = true
      · refine ⟨b :: s, by simp [hb], fun c hc => ?_⟩
        rcases List.mem_cons.mp hc with hc | hc
        · rw [hc]
          exact hb
        · exact hsp c (hdec ▸ hc)
      · exact ⟨t, by simp [hb, ← hdec], hsp⟩
    · rw [rstripL_cons_of_ne b s h]
      exact ⟨t, by rw [List.cons_append, ← hdec], hsp⟩

theorem rstripL_length_le (s : List Char) : (rstripL s).length ≤ s.length := by
  obtain ⟨t, hdec, _⟩ := exists_rstripL_decomp s
  have := congrArg List.length hdec
  simp only [List.length_append] at this
  omega

theorem rstripL_idem (s : List Char) : rstripL (rstripL s) = rstripL s := by
  induction s with
  | nil => rfl
  | cons b s ih =>
    by_cases h : rstripL s = []
    · rw [rstripL_cons_of_nil b s h]
      by_cases hb : isSpace b = true
      · rw [if_pos hb]
        rfl
      · rw [if_neg hb, rstripL_cons_of_nil b [] rfl, if_neg hb]
    · rw [rstripL_cons_of_ne b s h,
          rstripL_cons_of_ne b (rstripL s) (by rw [ih]; exact h), ih]

theorem lstripL_cons_of_space (b : Char) (s : List Char) (hb : isSpace b = true) :
    lstripL (b :: s) = lstripL s := by
  simp [lstripL, List.dropWhile_cons, hb]

theorem lstripL_cons_of_nonspace (b : Char) (s : List Char) (hb : isSpace b = false) :
    lstripL (b :: s) = b :: s := by
  simp [lstripL, List.dropWhile_cons, hb]

theorem lstrip_rstrip_comm (s : List Char) :
    lstripL (rstripL s) = rstripL (lstripL s) := by
  induction s with
  | nil => rfl
  | cons b s ih =>
    by_cases hb : isSpace b = true
    · by_cases h : rstripL s = []
      · rw [rstripL_cons_of_nil b s h, lstripL_cons_of_space b s hb, if_pos hb,
            ← ih, h]
      · rw [rstripL_cons_of_ne b s h, lstripL_cons_of_space b s hb,
            lstripL_cons_of_space b (rstripL s) hb]
        exact ih
    · have hbf : isSpace b = false := by
        cases hx : isSpace b
        · rfl
        · exact absurd hx hb
      by_cases h : rstripL s = []
      · rw [rstripL_cons_of_nil b s h, lstripL_cons_of_nonspace b s hbf, if_neg hb,
            rstripL_cons_of_nil b s h, if_neg hb, lstripL_cons_of_nonspace b [] hbf]
      · rw [rstripL_cons_of_ne b s h, lstripL_cons_of_nonspace b s hbf,
            lstripL_cons_of_nonspace b (rstripL s) hbf, rstripL_cons_of_ne b s h]

theorem stripL_rstripL (s : List Char) : stripL (rstripL s) = stripL s := by
  unfold stripL
  rw [lstrip_rstrip_comm, rstripL_idem]

theorem lstripL_idem (s : List Char) : lstripL (lstripL s) = lstripL s :=
  dropWhile_idem isSpace s

theorem stripL_idem (s : List Char) : stripL (stripL s) = stripL s := by
  show rstripL (lstripL (rstripL (lstripL s))) = rstripL (lstripL s)
  rw [lstrip_rstrip_comm, lstripL_idem, rstripL_idem]

theorem stripL_eq_nil_iff (s : List Char) :
    stripL s = [] ↔ ∀ c ∈ s, isSpace c = true := by
  constructor
  · intro h c hc
    have h1 := (rstripL_eq_nil_iff (lstripL s)).mp h
    have h2 : s = s.takeWhile isSpace ++ lstripL s :=
      (List.takeWhile_append_dropWhile isSpace s).symm
    rw [h2] at hc
    rcases List.mem_append.mp hc with hc | hc
    · exact mem_takeWhile_sat isSpace s c hc
    · exact h1 c hc
  · intro h
    have hl : lstripL s = [] :=
      List.dropWhile_eq_nil_iff.mpr (fun c hc => by simp [h c hc])
    show rstripL (lstripL s) = []
    rw [hl]
    rfl

theorem exists_stripL_decomp (s : List Char) :
    ∃ t u, s = t ++ stripL s ++ u := by
  obtain ⟨u, hdec, _⟩ := exists_rstripL_decomp (lstripL s)
  refine ⟨s.takeWhile isSpace, u, ?_⟩
  have h2 : s = s.takeWhile isSpace ++ lstripL s :=
    (List.takeWhile_append_dropWhile isSpace s).symm
  rw [stripL, List.append_assoc, ← hdec]
  exact h2

theorem mem_stripL (s : List Char) (c : Char) (h : c ∈ stripL s) : c ∈ s := by
  obtain ⟨t, u, hdec⟩ := exists_stripL_decomp s
  rw [hdec]
  simp [h]

theorem lstripL_length_le (s : List Char) : (lstripL s).length ≤ s.length :=
  (s.dropWhile_sublist isSpace).length_le

theorem stripL_fix_no_trailing (s : List Char) (hfix : stripL s = s)
    (init : List Char) (c : Char) (hs : s = init ++ [c]) : isSpace c = false := by
  by_contra hcon
  have hc : isSpace c = true := by
    cases h : isSpace c
    · exact absurd h hcon
    · rfl
  have hfix' : rstripL (lstripL s) = s := hfix
  have e1 : (rstripL (lstripL s)).length = s.length := by rw [hfix']
  have e2 : (rstripL (lstripL s)).length ≤ (lstripL s).length :=
    rstripL_length_le (lstripL s)
  have e3 : (lstripL s).length ≤ s.length := lstripL_length_le s
  have h4 : s = s.takeWhile isSpace ++ lstripL s :=
    (List.takeWhile_append_dropWhile isSpace s).symm
  have h5 : (s.takeWhile isSpace).length = 0 := by
    have := congrArg List.length h4
    simp only [List.length_append] at this
    omega
  rw [List.length_eq_zero] at h5
  have hlfix : lstripL s = s := by
    conv_rhs => rw [h4]
    rw [h5, List.nil_append]
  have hrfix : rstripL s = s := by
    rw [hlfix] at hfix'
    exact hfix'
  have heq : rstripL s = rstripL init := by
    rw [hs]
    exact rstripL_append_space init c hc
  have hle : (rstripL init).length ≤ init.length := rstripL_length_le init
  rw [hrfix] at heq
  have hlen := congrArg List.length heq
  rw [hs] at hlen
  simp only [List.length_append, List.length_cons] at hlen
  omega

theorem printable_not_break (c : Char) (h1 : 32 ≤ c.toNat) (h2 : c.toNat ≤ 126) :
    isLineBreak c = false := by
  simp only [isLineBreak, Bool.or_eq_false_iff, decide_eq_false_iff_not]
  omega

theorem printable_nonNL (c : Char) (h1 : 32 ≤ c.toNat) (h2 : c.toNat ≤ 126) :
    nonNL c = true := by
  simp only [nonNL, Bool.not_eq_true', Bool.or_eq_false_iff, decide_eq_false_iff_not]
  omega

theorem printable_space_iff (c : Char) (h1 : 32 ≤ c.toNat) (h2 : c.toNat ≤ 126) :
    isSpace c = true ↔ c.toNat = 32 := by
  simp only [isSpace, Bool.or_eq_true, Bool.and_eq_true, decide_eq_true_eq]
  omega

theorem splitlinesAux_nobreak (s : List Char) (hnb : ∀ c ∈ s, isLineBreak c = false) :
    ∀ acc : List Char,
      splitlinesAux acc s = if acc.reverse ++ s = [] then [] else [acc.reverse ++ s] := by
  induction s with
  | nil =>
    intro acc
    rcases acc with _ | ⟨a, as⟩
    · rfl
    · simp [splitlinesAux]
  | cons c rest ih =>
    intro acc
    have hc : isLineBreak c = false := hnb c (by simp)
    have hc13 : ¬ c.toNat = 13 := by
      simp only [isLineBreak, Bool.or_eq_false_iff, decide_eq_false_iff_not] at hc
      exact hc.1.1.1.1.1.1.1.1.2
    rcases rest with _ | ⟨d, rest2⟩
    · show splitlinesAux acc [c] = _
      rw [splitlinesAux, if_neg hc13, if_neg (by simp [hc])]
      show splitlinesAux (c :: acc) [] = _
      rw [splitlinesAux]
      have h0 : ((c :: acc).isEmpty) = false := rfl
      rw [h0]
      simp
    · show splitlinesAux acc (c :: d :: rest2) = _
      rw [splitlinesAux, if_neg hc13, if_neg (by simp [hc])]
      rw [ih (fun a ha => hnb a (by simp [ha])) (c :: acc)]
      have h1 : (c :: acc).reverse ++ d :: rest2 = acc.reverse ++ c :: d :: rest2 := by simp
      rw [h1]

theorem splitlinesL_nobreak (s : List Char) (hnb : ∀ c ∈ s, isLineBreak c = false) :
    splitlinesL s = if s = [] then [] else [s] := by
  rw [splitlinesL, splitlinesAux_nobreak s hnb []]
  rfl

theorem cleanLinesL_nobreak (s : List Char) (hnb : ∀ c ∈ s, isLineBreak c = false) :
    cleanLinesL s = stripL s := by
  unfold cleanLinesL
  rw [splitlinesL_nobreak s hnb]
  by_cases hs : s = []
  · rw [if_pos hs, hs]
    rfl
  · rw [if_neg hs]
    rcases hstrip : stripL s with _ | ⟨x, xs⟩
    · rw [List.filter_cons]
      have hpred : (!(stripL s).isEmpty) = false := by
        rw [hstrip]
        rfl
      rw [if_neg (by simp [hpred])]
      rfl
    · rw [List.filter_cons]
      have hpred : (!(stripL s).isEmpty) = true := by
        rw [hstrip]
        rfl
      rw [if_pos hpred]
      have h2 := stripL_rstripL s
      rw [hstrip] at h2
      exact h2

theorem matchAfterStar_length_le (r cap after : List Char)
    (h : matchAfterStar r = some (cap, after)) : after.length ≤ r.length := by
  unfold matchAfterStar at h
  split at h
  · split at h
    · cases h
    · simp only [Option.some.injEq, Prod.mk.injEq] at h
      rw [← h.2, List.length_reverse]
      exact le_trans (List.takeWhile_sublist _).length_le
        (le_of_eq (List.length_reverse _))
  · simp only [Option.some.injEq, Prod.mk.injEq] at h
    rw [← h.2]
    exact ((List.drop_sublist _ _).trans (List.dropWhile_sublist _)).length_le

theorem scanStarsF_irrel (f1 : Nat) :
    ∀ (f2 : Nat) (s : List Char), s.length ≤ f1 → s.length ≤ f2 →
      scanStarsF f1 s = scanStarsF f2 s := by
  induction f1 with
  | zero =>
    intro f2 s h1 h2
    have hs : s = [] := by
      rcases s with _ | _
      · rfl
      · simp at h1
    subst hs
    rcases f2 with _ | f2'
    · rfl
    · rfl
  | succ f1 ih =>
    intro f2 s h1 h2
    rcases s with _ | ⟨c, rest⟩
    · rcases f2 with _ | f2'
      · rfl
      · rfl
    · rcases f2 with _ | f2'
      · simp at h2
      · simp only [List.length_cons] at h1 h2
        by_cases hc : c = '*'
        · rcases hm : matchAfterStar rest with _ | ⟨cap, after⟩
          · simp only [scanStarsF, if_pos hc, hm]
            rw [ih f2' rest (by omega) (by omega)]
          · have hlen := matchAfterStar_length_le rest cap after hm
            simp only [scanStarsF, if_pos hc, hm]
            rw [ih f2' after (by omega) (by omega)]
        · simp only [scanStarsF, if_neg hc]
          rw [ih f2' rest (by omega) (by omega)]

theorem scanStarsF_fuel (fuel : Nat) (s : List Char) (h : s.length ≤ fuel) :
    scanStarsF fuel s = scanStars s :=
  scanStarsF_irrel fuel s.length s h (le_refl _)

theorem scanStars_nil : scanStars [] = ([], []) := rfl

theorem scanStars_cons_ne (c : Char) (s : List Char) (h : ¬ c = '*') :
    scanStars (c :: s) = ((scanStars s).1, c :: (scanStars s).2) := by
  show scanStarsF (s.length + 1) (c :: s) = _
  rw [scanStarsF, if_neg h]
  rfl

theorem scanStars_star_some (s cap after : List Char)
    (h : matchAfterStar s = some (cap, after)) :
    scanStars ('*' :: s) = (cap :: (scanStars after).1, (scanStars after).2) := by
  have hlen := matchAfterStar_length_le s cap after h
  show scanStarsF (s.length + 1) ('*' :: s) = _
  rw [scanStarsF, if_pos rfl, h]
  show (cap :: (scanStarsF s.length after).1, (scanStarsF s.length after).2) = _
  rw [scanStarsF_fuel s.length after hlen]

theorem scanStars_star_none (s : List Char) (h : matchAfterStar s = none) :
    scanStars ('*' :: s) = ((scanStars s).1, '*' :: (scanStars s).2) := by
  show scanStarsF (s.length + 1) ('*' :: s) = _
  rw [scanStarsF, if_pos rfl, h]
  rfl

theorem matchAfterStar_printable (s : List Char) (hne : s ≠ [])
    (hp : ∀ c ∈ s, 32 ≤ c.toNat ∧ c.toNat ≤ 126) :
    ∃ cap, matchAfterStar s = some (cap, []) ∧ stripL cap = stripL s := by
  have hnn : ∀ c ∈ s, nonNL c = true := fun c hc =>
    printable_nonNL c (hp c hc).1 (hp c hc).2
  unfold matchAfterStar
  by_cases hq : (s.dropWhile isSpace).isEmpty
  · have hallsp : ∀ c ∈ s, isSpace c = true := by
      have hnil : s.dropWhile isSpace = [] := by
        rcases hd : s.dropWhile isSpace with _ | _
        · rfl
        · rw [hd] at hq
          cases hq
      exact List.dropWhile_eq_nil_iff.mp hnil
    rw [if_pos hq]
    rcases hrev : s.reverse with _ | ⟨c, t⟩
    · exact absurd (by simpa using congrArg List.reverse hrev) hne
    · have hcmem : c ∈ s := by
        have : c ∈ s.reverse := by
          rw [hrev]
          simp
        simpa using this
      have hcnn : nonNL c = true := hnn c hcmem
      have hdw : (c :: t).dropWhile (fun x => !nonNL x) = c :: t := by
        rw [List.dropWhile_cons]
        simp [hcnn]
      refine ⟨[c], ?_, ?_⟩
      · rw [hdw]
        rw [List.takeWhile_cons]
        simp [hcnn]
      · have h1 : stripL [c] = [] :=
          (stripL_eq_nil_iff [c]).mpr (fun x hx => by
            have hxc := List.mem_singleton.mp hx
            rw [hxc]
            exact hallsp c hcmem)
        have h2 : stripL s = [] := (stripL_eq_nil_iff s).mpr hallsp
        rw [h1, h2]
  · rw [if_neg hq]
    have hsub : ∀ c ∈ s.dropWhile isSpace, nonNL c = true := fun c hc =>
      hnn c ((s.dropWhile_sublist isSpace).subset hc)
    have htw : (s.dropWhile isSpace).takeWhile nonNL = s.dropWhile isSpace :=
      takeWhile_eq_self_of_sat nonNL _ hsub
    refine ⟨s.dropWhile isSpace, ?_, ?_⟩
    · rw [htw]
      simp [List.drop_length]
    · show stripL (lstripL s) = stripL s
      unfold stripL
      rw [lstripL_idem]

theorem scanStars_printable (s : List Char)
    (hp : ∀ c ∈ s, 32 ≤ c.toNat ∧ c.toNat ≤ 126) :
    (scanStars s = ([], s) ∧ ∀ a b, s = a ++ '*' :: b → b = [])
    ∨ ∃ a r cap, s = a ++ '*' :: r ∧ '*' ∉ a ∧ r ≠ [] ∧
        scanStars s = ([cap], a) ∧ stripL cap = stripL r := by
  induction s with
  | nil =>
    left
    refine ⟨scanStars_nil, fun a b hab => ?_⟩
    exfalso
    have := congrArg List.length hab
    simp only [List.length_nil, List.length_append, List.length_cons] at this
    omega
  | cons c s' ih =>
    by_cases hc : c = '*'
    · subst hc
      by_cases hse : s' = []
      · subst hse
        left
        constructor
        · rw [scanStars_star_none [] rfl, scanStars_nil]
        · intro a b hab
          have := congrArg List.length hab
          simp only [List.length_cons, List.length_append, List.length_nil] at this
          have hb : b.length = 0 := by omega
          exact List.length_eq_zero.mp hb
      · obtain ⟨cap, hm, hstrip⟩ :=
          matchAfterStar_printable s' hse (fun x hx => hp x (by simp [hx]))
        right
        refine ⟨[], s', cap, by simp, by simp, hse, ?_, hstrip⟩
        rw [scanStars_star_some s' cap [] hm, scanStars_nil]
    · have ih' := ih (fun x hx => hp x (by simp [hx]))
      rcases ih' with ⟨hscan, hstar⟩ | ⟨a, r, cap, hdec, hna, hrne, hscan, hstrip⟩
      · left
        constructor
        · rw [scanStars_cons_ne c s' hc, hscan]
        · intro a b hab
          rcases a with _ | ⟨a0, as⟩
          · rw [List.nil_append] at hab
            injection hab with h1 h2
            exact absurd h1 hc
          · rw [List.cons_append] at hab
            injection hab with h1 h2
            exact hstar as b h2
      · right
        refine ⟨c :: a, r, cap, by rw [hdec, List.cons_append], ?_, hrne, ?_, hstrip⟩
        · intro hmem
          rcases List.mem_cons.mp hmem with h1 | h1
          · exact hc h1.symm
          · exact hna h1
        · rw [scanStars_cons_ne c s' hc, hscan]

theorem mk_eq_empty_iff (l : List Char) : String.mk l = "" ↔ l = [] := by
  constructor
  · intro h
    exact congrArg String.data h
  · intro h
    rw [h]

theorem nobreak_of_printable (s : List Char)
    (hp : ∀ c ∈ s, 32 ≤ c.toNat ∧ c.toNat ≤ 126) : ∀ c ∈ s, isLineBreak c = false :=
  fun c hc => printable_not_break c (hp c hc).1 (hp c hc).2

theorem extract_cases (note : String) (hp : PrintableS note) :
    (extract_tasks_and_clean_text note = ([], stripS note) ∧
       ∀ a b, note.toList = a ++ '*' :: b → b = [])
    ∨ ∃ a r cap, note.toList = a ++ '*' :: r ∧ '*' ∉ a ∧ r ≠ [] ∧ stripL cap = stripL r ∧
        extract_tasks_and_clean_text note =
          ((if stripL r = [] then [] else [String.mk (stripL cap)]), String.mk (stripL a)) := by
  rcases scanStars_printable note.toList hp with ⟨hscan, hstar⟩ |
    ⟨a, r, cap, hdec, hna, hrne, hscan, hstrip⟩
  · left
    refine ⟨?_, hstar⟩
    show ((((scanStars note.toList).1.map stripL).filter (fun l => !l.isEmpty)).map String.mk,
        String.mk (cleanLinesL (scanStars note.toList).2)) = ([], stripS note)
    rw [hscan, cleanLinesL_nobreak note.toList (nobreak_of_printable note.toList hp)]
    rfl
  · right
    have hpa : ∀ c ∈ a, 32 ≤ c.toNat ∧ c.toNat ≤ 126 := fun c hc =>
      hp c (by rw [hdec]; simp [hc])
    refine ⟨a, r, cap, hdec, hna, hrne, hstrip, ?_⟩
    show ((((scanStars note.toList).1.map stripL).filter (fun l => !l.isEmpty)).map String.mk,
        String.mk (cleanLinesL (scanStars note.toList).2)) = _
    rw [hscan, cleanLinesL_nobreak a (nobreak_of_printable a hpa)]
    show ((List.filter (fun l => !l.isEmpty) [stripL cap]).map String.mk, String.mk (stripL a)) = _
    rw [List.filter_cons]
    by_cases hr : stripL r = []
    · rw [if_neg (by rw [hstrip, hr]; simp), if_pos hr]
      rfl
    · rw [if_pos (by
        rw [hstrip]
        rcases hx : stripL r with _ | _
        · exact absurd hx hr
        · rfl), if_neg hr]
      rfl

theorem extract_of_no_eligible_star (m : String) (hp : PrintableS m)
    (hstar : ∀ a b, m.toList = a ++ '*' :: b → b = []) :
    extract_tasks_and_clean_text m = ([], stripS m) := by
  rcases extract_cases m hp with ⟨hex, _⟩ | ⟨a, r, cap, hdec, _, hrne, _, _⟩
  · exact hex
  · exact absurd (hstar a r hdec) hrne

theorem printableS_mk (l : List Char) (h : ∀ c ∈ l, 32 ≤ c.toNat ∧ c.toNat ≤ 126) :
    PrintableS (String.mk l) := h

theorem stripS_idem (s : String) : stripS (stripS s) = stripS s := by
  show String.mk (stripL (stripL s.toList)) = String.mk (stripL s.toList)
  rw [stripL_idem]

theorem extract_nonempty_note (note : String) (hp : PrintableS note)
    (hfix : stripS note = note) (hne : note ≠ "") :
    ¬ ((extract_tasks_and_clean_text note).1 = [] ∧
       (extract_tasks_and_clean_text note).2 = "") := by
  have hfixL : stripL note.toList = note.toList := congrArg String.data hfix
  rcases extract_cases note hp with ⟨hex, _⟩ | ⟨a, r, cap, hdec, hna, hrne, hstrip, hex⟩
  · rw [hex]
    intro hcon
    have h2 : stripS note = "" := hcon.2
    rw [hfix] at h2
    exact hne h2
  · rw [hex]
    intro hcon
    have h1 := hcon.1
    have hrs : stripL r ≠ [] := by
      intro hrnil
      have hallsp : ∀ c ∈ r, isSpace c = true := (stripL_eq_nil_iff r).mp hrnil
      rcases List.eq_nil_or_concat r with hnil | ⟨r2, clast, hr2⟩
      · exact hrne hnil
      · have hclast : isSpace clast = true := hallsp clast (by rw [hr2]; simp)
        have hdec2 : note.toList = (a ++ '*' :: r2) ++ [clast] := by
          rw [hdec, hr2]
          simp
        have := stripL_fix_no_trailing note.toList hfixL (a ++ '*' :: r2) clast hdec2
        rw [hclast] at this
        cases this
    rw [if_neg hrs] at h1
    cases h1

theorem extract_idempotent_core (note : String) (hp : PrintableS note) :
    extract_tasks_and_clean_text ((extract_tasks_and_clean_text note).2) =
      ([], (extract_tasks_and_clean_text note).2) := by
  rcases extract_cases note hp with ⟨hex, hstar⟩ | ⟨a, r, cap, hdec, hna, hrne, hstrip, hex⟩
  · rw [hex]
    have hp2 : PrintableS (stripS note) := fun c hc =>
      hp c (mem_stripL note.toList c hc)
    have hstar2 : ∀ a b, (stripS note).toList = a ++ '*' :: b → b = [] := by
      intro a b hab
      obtain ⟨t, u, hdec2⟩ := exists_stripL_decomp note.toList
      have : note.toList = (t ++ a) ++ '*' :: (b ++ u) := by
        rw [hdec2]
        show t ++ stripL note.toList ++ u = _
        rw [show (stripS note).toList = stripL note.toList from rfl] at hab
        rw [hab]
        simp
      have := hstar (t ++ a) (b ++ u) this
      exact (List.append_eq_nil.mp this).1
    rw [extract_of_no_eligible_star (stripS note) hp2 hstar2, stripS_idem]
  · rw [hex]
    have hpa : ∀ c ∈ a, 32 ≤ c.toNat ∧ c.toNat ≤ 126 := fun c hc =>
      hp c (by rw [hdec]; simp [hc])
    have hp2 : PrintableS (String.mk (stripL a)) := fun c hc =>
      hpa c (mem_stripL a c hc)
    have hstar2 : ∀ x y, (String.mk (stripL a)).toList = x ++ '*' :: y → y = [] := by
      intro x y hxy
      exfalso
      have hmem : '*' ∈ stripL a := by
        rw [show (String.mk (stripL a)).toList = stripL a from rfl] at hxy
        rw [hxy]
        simp
      exact hna (mem_stripL a '*' hmem)
    rw [extract_of_no_eligible_star (String.mk (stripL a)) hp2 hstar2]
    show ([], String.mk (stripL (stripL a))) = _
    rw [stripL_idem]
theorem count_foldl_append (lts : List String) :
    ∀ (acc : List String) (t : String),
      (lts.foldl (fun a l => if l ∈ a then a else a ++ [l]) acc).count t =
        if t ∈ acc then acc.count t else if t ∈ lts then 1 else 0 := by
  induction lts with
  | nil =>
    intro acc t
    rw [List.foldl_nil]
    by_cases h : t ∈ acc
    · rw [if_pos h]
    · rw [if_neg h]
      simp [List.count_eq_zero.mpr h]
  | cons l ls ih =>
    intro acc t
    rw [List.foldl_cons]
    by_cases hl : l ∈ acc
    · rw [if_pos hl, ih acc t]
      by_cases ht : t ∈ acc
      · rw [if_pos ht, if_pos ht]
      · rw [if_neg ht, if_neg ht]
        by_cases hts : t ∈ ls
        · rw [if_pos hts, if_pos (by simp [hts])]
        · have htl : ¬ t = l := fun h => ht (h ▸ hl)
          rw [if_neg hts, if_neg (by simp [htl, hts])]
    · rw [if_neg hl, ih (acc ++ [l]) t]
      by_cases ht : t ∈ acc
      · have htl : ¬ t = l := fun h => hl (h ▸ ht)
        rw [if_pos (by simp [ht]), if_pos ht, List.count_append]
        simp [List.count_singleton', htl]
      · by_cases htl : t = l
        · subst htl
          rw [if_pos (by simp), if_neg ht, if_pos (by simp), List.count_append]
          simp [List.count_eq_zero.mpr ht]
        · rw [if_neg (by simp [ht, htl]), if_neg ht]
          by_cases hts : t ∈ ls
          · rw [if_pos hts, if_pos (by simp [hts])]
          · rw [if_neg hts, if_neg (by simp [htl, hts])]

theorem extract_tasks_shape (s : String) (t : String)
    (ht : t ∈ (extract_tasks_and_clean_text s).1) :
    ∃ l, t = String.mk l ∧ stripL l = l ∧ l ≠ [] := by
  obtain ⟨l, hl, heq⟩ := List.mem_map.mp ht
  obtain ⟨hmem, hkeep⟩ := List.mem_filter.mp hl
  obtain ⟨c0, hc0, hstr⟩ := List.mem_map.mp hmem
  refine ⟨l, heq.symm, ?_, ?_⟩
  · rw [← hstr]
    exact stripL_idem c0
  · intro hnil
    rw [hnil] at hkeep
    cases hkeep

theorem extract_task_ne_empty (s : String) (t : String)
    (ht : t ∈ (extract_tasks_and_clean_text s).1) : t ≠ "" := by
  obtain ⟨l, rfl, _, hne⟩ := extract_tasks_shape s t ht
  intro hcon
  exact hne ((mk_eq_empty_iff l).mp hcon)

theorem tfd_add_same (m : TasksMap) (d t : String) (ht : ¬ t = "") :
    tasks_for_date (add_task_for_date m d t) d = tasks_for_date m d ++ [t] := by
  rw [add_task_for_date, if_neg ht]
  induction m with
  | nil =>
    show tasks_for_date [(d, [t])] d = tasks_for_date [] d ++ [t]
    rw [tasks_for_date, tasks_lookup, if_pos rfl]
    rfl
  | cons kv rest ih =>
    rcases kv with ⟨k, v⟩
    by_cases hk : k = d
    · subst hk
      rw [addToBucket, if_pos rfl]
      rw [tasks_for_date, tasks_lookup, if_pos rfl, tasks_for_date, tasks_lookup, if_pos rfl]
      rfl
    · show tasks_for_date (addToBucket ((k, v) :: rest) d t) d
        = tasks_for_date ((k, v) :: rest) d ++ [t]
      rw [addToBucket, if_neg hk, tasks_for_date, tasks_lookup, if_neg hk,
          tasks_for_date, tasks_lookup, if_neg hk]
      exact ih

theorem tfd_add_other (m : TasksMap) (d t k : String) (hk : ¬ k = d) :
    tasks_for_date (add_task_for_date m d t) k = tasks_for_date m k := by
  rw [add_task_for_date]
  by_cases ht : t = ""
  · rw [if_pos ht]
  · rw [if_neg ht]
    induction m with
    | nil =>
      show tasks_for_date [(d, [t])] k = tasks_for_date [] k
      rw [tasks_for_date, tasks_lookup, if_neg (fun h => hk h.symm)]
      rfl
    | cons kv rest ih =>
      rcases kv with ⟨k2, v⟩
      by_cases hk2 : k2 = d
      · subst hk2
        rw [addToBucket, if_pos rfl]
        rw [tasks_for_date, tasks_lookup, if_neg (fun h => hk h.symm),
            tasks_for_date, tasks_lookup, if_neg (fun h => hk h.symm)]
      · rw [addToBucket, if_neg hk2]
        by_cases hkk : k2 = k
        · rw [tasks_for_date, tasks_lookup, if_pos hkk,
              tasks_for_date, tasks_lookup, if_pos hkk]
        · rw [tasks_for_date, tasks_lookup, if_neg hkk,
              tasks_for_date, tasks_lookup, if_neg hkk]
          exact ih

theorem tfd_fold_append (ts : List String) :
    ∀ (m : TasksMap) (d : String), (∀ t ∈ ts, ¬ t = "") →
      tasks_for_date (ts.foldl (fun m t => add_task_for_date m d t) m) d
        = tasks_for_date m d ++ ts := by
  induction ts with
  | nil =>
    intro m d _
    simp
  | cons t ts ih =>
    intro m d hts
    rw [List.foldl_cons, ih (add_task_for_date m d t) d (fun x hx => hts x (by simp [hx])),
        tfd_add_same m d t (hts t (by simp))]
    simp

theorem mem_tfd_add (m : TasksMap) (d t k x : String)
    (hx : x ∈ tasks_for_date (add_task_for_date m d t) k) :
    x ∈ tasks_for_date m k ∨ x = t := by
  by_cases ht : t = ""
  · rw [add_task_for_date, if_pos ht] at hx
    exact Or.inl hx
  · by_cases hk : k = d
    · subst hk
      rw [tfd_add_same m k t ht] at hx
      rcases List.mem_append.mp hx with h | h
      · exact Or.inl h
      · exact Or.inr (List.mem_singleton.mp h)
    · rw [tfd_add_other m d t k hk] at hx
      exact Or.inl hx

theorem mem_tfd_fold (ts : List String) :
    ∀ (m : TasksMap) (d k x : String),
      x ∈ tasks_for_date (ts.foldl (fun m t => add_task_for_date m d t) m) k →
        x ∈ tasks_for_date m k ∨ x ∈ ts := by
  induction ts with
  | nil =>
    intro m d k x hx
    exact Or.inl hx
  | cons t ts ih =>
    intro m d k x hx
    rw [List.foldl_cons] at hx
    rcases ih (add_task_for_date m d t) d k x hx with h | h
    · rcases mem_tfd_add m d t k x h with h2 | h2
      · exact Or.inl h2
      · exact Or.inr (by simp [h2])
    · exact Or.inr (by simp [h])
theorem nav_step_le (dayCount jump sel : Nat) (h : sel ≤ dayCount - 1) (c : NavCmd) :
    nav_step dayCount jump sel c ≤ dayCount - 1 := by
  cases c
  · simp only [nav_step]
    split <;> omega
  · simp only [nav_step]
    split <;> omega
  · simp only [nav_step]
    omega
  · simp only [nav_step]
    exact le_trans (Nat.min_le_left _ _) (le_refl _)

theorem nav_run_le (dayCount jump : Nat) (cmds : List NavCmd) :
    ∀ sel0, sel0 ≤ dayCount - 1 → nav_run dayCount jump sel0 cmds ≤ dayCount - 1 := by
  induction cmds with
  | nil =>
    intro sel0 h
    exact h
  | cons c cs ih =>
    intro sel0 h
    exact ih (nav_step dayCount jump sel0 c) (nav_step_le dayCount jump sel0 h c)

theorem top_of_window (h dayCount sel : Nat) (hh : 1 ≤ h) (hs : sel ≤ dayCount - 1)
    (hd : 0 < dayCount) :
    top_of h dayCount sel ≤ sel ∧ sel ≤ top_of h dayCount sel + h - 1 := by
  unfold top_of
  have hdiv : h / 2 ≤ h - 1 := by omega
  rcases Nat.le_total (sel - h / 2) (dayCount - h) with hle | hle
  · rw [Nat.min_eq_left hle]
    omega
  · rw [Nat.min_eq_right hle]
    omega

theorem adjust_scroll_inv (v : Nat) (hv : 1 ≤ v) (st : EdState) :
    (adjust_scroll v st).buffer = st.buffer ∧ (adjust_scroll v st).cursor = st.cursor ∧
    (adjust_scroll v st).scroll ≤ st.cursor ∧
    st.cursor ≤ (adjust_scroll v st).scroll + v - 1 := by
  unfold adjust_scroll
  split
  · refine ⟨rfl, rfl, ?_, ?_⟩
    · show st.cursor ≤ st.cursor
      exact le_refl _
    · show st.cursor ≤ st.cursor + v - 1
      omega
  · split
    · refine ⟨rfl, rfl, ?_, ?_⟩
      · show st.cursor - (v - 1) ≤ st.cursor
        omega
      · show st.cursor ≤ st.cursor - (v - 1) + v - 1
        omega
    · refine ⟨rfl, rfl, ?_, ?_⟩ <;> omega

theorem adjust_scroll_id (v : Nat) (st : EdState) (h1 : st.scroll ≤ st.cursor)
    (h2 : st.cursor ≤ st.scroll + v - 1) : adjust_scroll v st = st := by
  unfold adjust_scroll
  rw [if_neg (by omega), if_neg (by omega)]

theorem ed_visible_pos (w : Nat) : 1 ≤ ed_loop_visible w := Nat.le_max_left 1 w

theorem weekdayNameOf_lower_iff (i : Nat) :
    (lowerS (weekdayNameOf i) = "monday" ∨ lowerS (weekdayNameOf i) = "tuesday") ↔
      (i = 0 ∨ i = 1) := by
  rcases i with _ | (_ | (_ | (_ | (_ | (_ | i)))))
  · decide
  · decide
  · decide
  · decide
  · decide
  · decide
  · have h6 : weekdayNameOf (i + 6) = "Sunday" := by
      unfold weekdayNameOf
      rw [if_neg (by omega), if_neg (by omega), if_neg (by omega), if_neg (by omega),
          if_neg (by omega), if_neg (by omega)]
    rw [h6]
    constructor
    · intro hcon
      rcases hcon with hcon | hcon
      · exact absurd hcon (by decide)
      · exact absurd hcon (by decide)
    · intro hcon
      rcases hcon with hcon | hcon <;> omega
/-- C1 counterexample: committing the line "met Bob #Friend #friend"
produces an entry whose tag list holds "friend" twice, so a tag occurring
several times in the input (in any letter case) is NOT recorded exactly
once, contrary to the claim. -/
theorem C1_counterexample :
    (commitStep [] [] "met Bob #Friend #friend" "2026_10_12_09_00_00" "2026_10_13"
        "Berlin" ["berlin"]).entries.map Entry.tags = [["friend", "friend", "berlin"]] ∧
    ¬ List.count "friend" ["friend", "friend", "berlin"] = 1 := by
  constructor
  · decide
  · decide

/-- C1 (amended): the committed tag list contains one lowercased entry per
occurrence of each hash-token of the input (so a repeated token appears
once per occurrence, not once overall), and a session location tag is
appended exactly once when the token does not already occur, never when
it does: the multiplicity of any token t in the commit tag list is its
multiplicity among the extracted tags when t was extracted at all, and
otherwise one or zero according to whether t is a location tag. -/
theorem C1_tags_per_occurrence (note : String) (lts : List String) (t : String) :
    (commit_tags note lts).count t =
      if t ∈ extract_tags note then (extract_tags note).count t
      else if t ∈ lts then 1 else 0 :=
  count_foldl_append lts (extract_tags note) t

/-- C1 witness: a location tag absent from the input is appended exactly
once. -/
theorem C1_witness :
    (commit_tags "met Bob #Friend #friend" ["berlin"]).count "berlin" = 1 := by
  rw [C1_tags_per_occurrence "met Bob #Friend #friend" ["berlin"] "berlin"]
  decide

/-- C2: committing a line whose cleaned text is empty and which yields no
tasks leaves the entries and the task map unchanged and never calls
save_data.  The hypotheses state that the note is a line the editor can
return: printable ASCII and already stripped.  (For such notes the only
line with empty cleaned text and no tasks is the empty submission.) -/
theorem C2_empty_submission_noop (entries : List Entry) (tm : TasksMap) (note : String)
    (nowTs tomorrowStr loc : String) (lts : List String)
    (hp : PrintableS note) (hfix : stripS note = note)
    (hclean : (extract_tasks_and_clean_text note).2 = "")
    (htasks : (extract_tasks_and_clean_text note).1 = []) :
    commitStep entries tm note nowTs tomorrowStr loc lts = ⟨entries, tm, false⟩ := by
  by_cases hsw : note = SWITCH_FOCUS_TOKEN
  · rw [commitStep, if_pos hsw]
  · by_cases hne : note = ""
    · rw [commitStep, if_neg hsw, if_pos hne]
    · exact absurd ⟨htasks, hclean⟩ (extract_nonempty_note note hp hfix hne)

/-- C2 witness: the empty submission itself. -/
theorem C2_witness :
    commitStep [] [] "" "2026_10_12_09_00_00" "2026_10_13" "" [] = ⟨[], [], false⟩ :=
  C2_empty_submission_noop [] [] "" "2026_10_12_09_00_00" "2026_10_13" "" []
    (by decide) (by decide) (by decide) (by decide)

/-- C3: task extraction is idempotent on its cleaned-text output for every
line the editor can produce (printable ASCII): re-running extraction on
the cleaned text yields zero tasks and returns the cleaned text unchanged
(so in particular no further text, hence no tag occurrence, is removed). -/
theorem C3_extraction_idempotent (note : String) (hp : PrintableS note) :
    extract_tasks_and_clean_text ((extract_tasks_and_clean_text note).2) =
      ([], (extract_tasks_and_clean_text note).2) :=
  extract_idempotent_core note hp

/-- C3 witness at a line holding a tag and a task. -/
theorem C3_witness :
    extract_tasks_and_clean_text ((extract_tasks_and_clean_text "log #tag * task one").2) =
      ([], (extract_tasks_and_clean_text "log #tag * task one").2) :=
  C3_extraction_idempotent "log #tag * task one" (by decide)

/-- C4 counterexample: a persisted source that is a bare JSON sequence of
entries (the legacy shape) makes load_data return EMPTY collections (and
no error report); the persisted entries are discarded, not returned,
contrary to the claim. -/
theorem C4_counterexample :
    load_data (LoadSource.parsed (Json.arr [Json.str "legacy entry"])) =
      ⟨Json.arr [], Json.obj [], false⟩ ∧
    Json.arr [Json.str "legacy entry"] ≠ Json.arr [] := by
  constructor
  · rfl
  · intro hcon
    injection hcon with h1
    exact List.cons_ne_nil _ _ h1

/-- C4 (amended): load_data tolerates a missing source by returning empty
collections without an error report; an unreadable or malformed source
yields empty collections WITH a recoverable error report, and the error
report happens in exactly that case; a legacy bare-sequence source is
tolerated but its entries are dropped (empty collections, silently); a
parsed object yields its entries and tasks fields with empty defaults. -/
theorem C4_load_tolerance :
    load_data LoadSource.missing = ⟨Json.arr [], Json.obj [], false⟩ ∧
    load_data LoadSource.unreadable = ⟨Json.arr [], Json.obj [], true⟩ ∧
    (∀ src, (load_data src).errorReported = true ↔ src = LoadSource.unreadable) ∧
    (∀ es, load_data (LoadSource.parsed (Json.arr es)) = ⟨Json.arr [], Json.obj [], false⟩) ∧
    (∀ fields, load_data (LoadSource.parsed (Json.obj fields)) =
      ⟨jsonGetD fields "entries" (Json.arr []),
       jsonGetD fields "tasks" (Json.obj []), false⟩) := by
  refine ⟨rfl, rfl, ?_, fun es => rfl, fun fields => rfl⟩
  intro src
  cases src with
  | missing =>
    exact ⟨fun h => (nomatch h), fun h => (nomatch h)⟩
  | unreadable =>
    exact ⟨fun _ => rfl, fun _ => rfl⟩
  | parsed v =>
    cases v with
    | null => exact ⟨fun h => (nomatch h), fun h => (nomatch h)⟩
    | bool b => exact ⟨fun h => (nomatch h), fun h => (nomatch h)⟩
    | num n => exact ⟨fun h => (nomatch h), fun h => (nomatch h)⟩
    | str s => exact ⟨fun h => (nomatch h), fun h => (nomatch h)⟩
    | arr es => exact ⟨fun h => (nomatch h), fun h => (nomatch h)⟩
    | obj fields => exact ⟨fun h => (nomatch h), fun h => (nomatch h)⟩

/-- C4 witness: a parsed bare array yields empty collections silently. -/
theorem C4_witness :
    load_data (LoadSource.parsed (Json.arr [Json.null])) =
      ⟨Json.arr [], Json.obj [], false⟩ :=
  C4_load_tolerance.2.2.2.1 [Json.null]

/-- C10: every extracted task string is non-empty and stripped of outer
whitespace; adding an empty task string to the task map is a no-op; and a
commit step never introduces an empty task under any day key (it
preserves the invariant that every stored task string is non-empty). -/
theorem C10_task_strings_nonempty :
    (∀ s t, t ∈ (extract_tasks_and_clean_text s).1 → t ≠ "" ∧ stripS t = t) ∧
    (∀ (m : TasksMap) (d : String), add_task_for_date m d "" = m) ∧
    (∀ entries tm note nowTs tomorrowStr loc lts,
      (∀ k t, t ∈ tasks_for_date tm k → t ≠ "") →
      (∀ k t, t ∈ tasks_for_date
        (commitStep entries tm note nowTs tomorrowStr loc lts).tasks k → t ≠ "")) := by
  refine ⟨?_, ?_, ?_⟩
  · intro s t ht
    obtain ⟨l, rfl, hfix, hne⟩ := extract_tasks_shape s t ht
    constructor
    · intro hcon
      exact hne ((mk_eq_empty_iff l).mp hcon)
    · show String.mk (stripL l) = String.mk l
      rw [hfix]
  · intro m d
    rw [add_task_for_date, if_pos rfl]
  · intro entries tm note nowTs tomorrowStr loc lts hinv k t ht
    by_cases hsw : note = SWITCH_FOCUS_TOKEN
    · rw [commitStep, if_pos hsw] at ht
      exact hinv k t ht
    · by_cases hne : note = ""
      · rw [commitStep, if_neg hsw, if_pos hne] at ht
        exact hinv k t ht
      · rw [commitStep, if_neg hsw, if_neg hne] at ht
        have ht2 : t ∈ tasks_for_date
            ((extract_tasks_and_clean_text note).1.foldl
              (fun m t => add_task_for_date m tomorrowStr t) tm) k := ht
        rcases mem_tfd_fold (extract_tasks_and_clean_text note).1 tm tomorrowStr k t ht2
          with h | h
        · exact hinv k t h
        · exact extract_task_ne_empty note t h

/-- C10 witness: a concrete extracted task is non-empty and stripped. -/
theorem C10_witness : "buy milk" ≠ "" ∧ stripS "buy milk" = "buy milk" :=
  C10_task_strings_nonempty.1 "* buy milk" "buy milk" (by decide)
/-- C5 counterexample: the session starts on 2026-10-12, so the loop's
tomorrow key is 2026_10_13.  A task committed after midnight (typed at
timestamp 2026_10_13_00_30_00) is stored under 2026_10_13 — the day it
was typed on — while the day after the typing day is 2026_10_14, where no
task is stored.  The claimed key dayKeyOf(now + 1 day) therefore does not
hold for every committed line. -/
theorem C5_counterexample :
    (commitStep [] [] "* call plumber" "2026_10_13_00_30_00"
        (dayKeyOfDate (nextDay ⟨2026, 10, 12⟩)) "" []).tasks
      = [("2026_10_13", ["call plumber"])] ∧
    dayKeyOfDate (nextDay ⟨2026, 10, 13⟩) = "2026_10_14" ∧
    tasks_for_date [("2026_10_13", ["call plumber"])] "2026_10_14" = [] := by
  refine ⟨?_, ?_, ?_⟩
  · decide
  · decide
  · decide

/-- C5 (amended): every task extracted from a committed line is appended
to the tasks bucket keyed by the day after the SESSION-START day (which
equals the day after the typing day only while the session has not
crossed midnight), and no asterisk-prefixed fragment of an extracted task
ever appears in the committed entry's cleaned text. -/
theorem C5_tasks_under_session_tomorrow (entries : List Entry) (tm : TasksMap)
    (note : String) (nowTs : String) (sessionDate : Date) (loc : String)
    (lts : List String) (hp : PrintableS note) :
    (∀ t ∈ (extract_tasks_and_clean_text note).1,
      t ∈ tasks_for_date
        (commitStep entries tm note nowTs (dayKeyOfDate (nextDay sessionDate)) loc lts).tasks
        (dayKeyOfDate (nextDay sessionDate))) ∧
    (∀ t ∈ (extract_tasks_and_clean_text note).1,
      ¬ ('*' :: t.toList) <:+: (extract_tasks_and_clean_text note).2.toList) := by
  constructor
  · intro t ht
    by_cases hsw : note = SWITCH_FOCUS_TOKEN
    · subst hsw
      have hempty : (extract_tasks_and_clean_text SWITCH_FOCUS_TOKEN).1 = [] := by decide
      rw [hempty] at ht
      cases ht
    · by_cases hne : note = ""
      · subst hne
        have hempty : (extract_tasks_and_clean_text "").1 = [] := by decide
        rw [hempty] at ht
        cases ht
      · rw [commitStep, if_neg hsw, if_neg hne]
        show t ∈ tasks_for_date
          ((extract_tasks_and_clean_text note).1.foldl
            (fun m t => add_task_for_date m (dayKeyOfDate (nextDay sessionDate)) t) tm)
          (dayKeyOfDate (nextDay sessionDate))
        rw [tfd_fold_append (extract_tasks_and_clean_text note).1 tm
          (dayKeyOfDate (nextDay sessionDate))
          (fun x hx => extract_task_ne_empty note x hx)]
        exact List.mem_append.mpr (Or.inr ht)
  · intro t ht hinf
    rcases extract_cases note hp with ⟨hex, _⟩ | ⟨a, r, cap, hdec, hna, hrne, hstrip, hex⟩
    · rw [hex] at ht
      cases ht
    · have hstar_mem : '*' ∈ (extract_tasks_and_clean_text note).2.toList :=
        hinf.subset (by simp)
      rw [hex] at hstar_mem
      have : '*' ∈ stripL a := hstar_mem
      exact hna (mem_stripL a '*' this)

/-- C5 witness: a committed task lands under the session's tomorrow key. -/
theorem C5_witness :
    "buy milk" ∈ tasks_for_date
      (commitStep [] [] "go #x * buy milk" "2026_10_12_09_00_00"
        (dayKeyOfDate (nextDay ⟨2026, 10, 12⟩)) "" []).tasks
      (dayKeyOfDate (nextDay ⟨2026, 10, 12⟩)) :=
  (C5_tasks_under_session_tomorrow [] [] "go #x * buy milk" "2026_10_12_09_00_00"
    ⟨2026, 10, 12⟩ "" [] (by decide)).1 "buy milk" (by decide)

/-- C6: evaluation of group_entries_by_day at the failing input.  An
entry with an unparseable timestamp (bucketed first, under "unknown") and
an entry dated year 1 day 1 (whose bucket key parses to the minimal date,
the same sort key the code assigns to "unknown") leave the "unknown"
bucket FIRST, not last: the stable descending sort keeps insertion order
on the tied keys, although the code comments say unknown must go last. -/
theorem C6_unknown_not_last :
    (group_entries_by_day
      [⟨"not a timestamp", "first", [], ""⟩, ⟨"0001_01_01", "second", [], ""⟩]).map
        Prod.fst = ["unknown", "1_01_01"] := by
  decide

/-- C7: after any sequence of Up/Down/PageUp/PageDown commands the
selected index stays within [0, max(0, dayCount - 1)] (subtraction on
naturals is truncated, so dayCount - 1 is that bound), and whenever any
day exists the viewport top computed for the selection keeps the
selection inside the window of visibleRows rows. -/
theorem C7_nav_invariant (dayCount h jump sel0 : Nat) (cmds : List NavCmd)
    (hh : 1 ≤ h) (hsel : sel0 ≤ dayCount - 1) :
    nav_run dayCount jump sel0 cmds ≤ dayCount - 1 ∧
    (0 < dayCount →
      top_of h dayCount (nav_run dayCount jump sel0 cmds) ≤ nav_run dayCount jump sel0 cmds ∧
      nav_run dayCount jump sel0 cmds ≤
        top_of h dayCount (nav_run dayCount jump sel0 cmds) + h - 1) := by
  have hle := nav_run_le dayCount jump cmds sel0 hsel
  exact ⟨hle, fun hd => top_of_window h dayCount _ hh hle hd⟩

/-- C7 witness at a concrete command sequence. -/
theorem C7_witness :
    nav_run 5 2 0 [NavCmd.down, NavCmd.pageDown, NavCmd.up] ≤ 5 - 1 ∧
    (0 < 5 →
      top_of 3 5 (nav_run 5 2 0 [NavCmd.down, NavCmd.pageDown, NavCmd.up]) ≤
        nav_run 5 2 0 [NavCmd.down, NavCmd.pageDown, NavCmd.up] ∧
      nav_run 5 2 0 [NavCmd.down, NavCmd.pageDown, NavCmd.up] ≤
        top_of 3 5 (nav_run 5 2 0 [NavCmd.down, NavCmd.pageDown, NavCmd.up]) + 3 - 1) :=
  C7_nav_invariant 5 3 2 0 [NavCmd.down, NavCmd.pageDown, NavCmd.up]
    (by decide) (by decide)
theorem clock_filter_isEmpty_iff (entries : List Entry) (now : DateTime) :
    ((entries.filter (fun e => isPre (dayKeyOfDate now.date).toList e.timestamp.toList &&
        decide (stripS e.text ≠ ""))).isEmpty = true) ↔
      ¬ ∃ e ∈ entries, isPre (dayKeyOfDate now.date).toList e.timestamp.toList = true ∧
        stripS e.text ≠ "" := by
  rw [List.isEmpty_iff, List.filter_eq_nil_iff]
  constructor
  · intro hall hcon
    obtain ⟨e, he, h1, h2⟩ := hcon
    have hthis := hall e he
    simp only [Bool.and_eq_true, decide_eq_true_eq, not_and] at hthis
    exact (hthis h1) h2
  · intro hno e he
    simp only [Bool.and_eq_true, decide_eq_true_eq, not_and]
    intro h1 h2
    exact hno ⟨e, he, h1, h2⟩

/-- C8: at session start exactly one clock-in entry is synthesized and
saved if and only if no entry with non-blank text exists for the current
day; its text states the session start time and an end time equal to the
start plus 9 hours when the weekday index is Monday (0) or Tuesday (1)
and plus 8 hours otherwise (displayed modulo one day), and it carries
exactly the session's location tags and location. -/
theorem C8_clock_in (entries : List Entry) (now : DateTime) (loc : String)
    (lts : List String) :
    ((¬ ∃ e ∈ entries, isPre (dayKeyOfDate now.date).toList e.timestamp.toList = true ∧
        stripS e.text ≠ "") →
      clock_in_step entries now loc lts =
        (entries ++ [⟨tsOf now,
          "Clock-In at " ++ fmtHMS now.secs ++ ". Clock out at " ++
            fmtHMS ((now.secs +
              (if weekdayIdx now.date = 0 ∨ weekdayIdx now.date = 1 then 9 else 8) * 3600)
              % 86400),
          lts, loc⟩], true)) ∧
    ((∃ e ∈ entries, isPre (dayKeyOfDate now.date).toList e.timestamp.toList = true ∧
        stripS e.text ≠ "") →
      clock_in_step entries now loc lts = (entries, false)) := by
  have hdelta : (if lowerS (weekdayName now.date) = "monday" ∨
      lowerS (weekdayName now.date) = "tuesday" then (9 : Nat) else 8) =
      (if weekdayIdx now.date = 0 ∨ weekdayIdx now.date = 1 then (9 : Nat) else 8) := by
    simp only [weekdayName]
    by_cases hw : weekdayIdx now.date = 0 ∨ weekdayIdx now.date = 1
    · rw [if_pos ((weekdayNameOf_lower_iff (weekdayIdx now.date)).mpr hw), if_pos hw]
    · rw [if_neg (fun hcon => hw ((weekdayNameOf_lower_iff (weekdayIdx now.date)).mp hcon)),
          if_neg hw]
  constructor
  · intro hno
    have hemp := (clock_filter_isEmpty_iff entries now).mpr hno
    show (if (entries.filter (fun e => isPre (dayKeyOfDate now.date).toList
        e.timestamp.toList && decide (stripS e.text ≠ ""))).isEmpty = true then _ else _) = _
    rw [if_pos hemp, hdelta]
    rfl
  · intro hyes
    have hemp : ¬ ((entries.filter (fun e => isPre (dayKeyOfDate now.date).toList
        e.timestamp.toList && decide (stripS e.text ≠ ""))).isEmpty = true) := by
      intro hcon
      exact ((clock_filter_isEmpty_iff entries now).mp hcon) hyes
    show (if (entries.filter (fun e => isPre (dayKeyOfDate now.date).toList
        e.timestamp.toList && decide (stripS e.text ≠ ""))).isEmpty = true then _ else _) = _
    rw [if_neg hemp]

/-- C8 witness: 2026-10-12 is a Monday; with no prior entry for the day,
the clock-in entry announces a nine-hour span (08:00:00 to 17:00:00). -/
theorem C8_witness :
    clock_in_step [] ⟨⟨2026, 10, 12⟩, 28800⟩ "office" ["office"] =
      ([⟨"2026_10_12_08_00_00", "Clock-In at 08:00:00. Clock out at 17:00:00",
        ["office"], "office"⟩], true) := by
  have h := (C8_clock_in [] ⟨⟨2026, 10, 12⟩, 28800⟩ "office" ["office"]).1 (by simp)
  rw [h]
  decide

theorem ed_next_inv (w : Nat) (st2 : EdState) (hc2 : st2.cursor ≤ st2.buffer.length) :
    (adjust_scroll (ed_loop_visible w) st2).cursor ≤
      (adjust_scroll (ed_loop_visible w) st2).buffer.length ∧
    (adjust_scroll (ed_loop_visible w) st2).scroll ≤
      (adjust_scroll (ed_loop_visible w) st2).cursor ∧
    (adjust_scroll (ed_loop_visible w) st2).cursor ≤
      (adjust_scroll (ed_loop_visible w) st2).scroll + ed_loop_visible w - 1 := by
  obtain ⟨hb, hcur, hs1, hs2⟩ := adjust_scroll_inv (ed_loop_visible w) (ed_visible_pos w) st2
  rw [hb, hcur]
  exact ⟨hc2, hs1, hs2⟩

/-- C9: whenever a keystroke leaves the editor in a continuing state, the
cursor stays within [0, buffer length] and the scroll offset keeps the
cursor inside the visible window (snapping as the source does); and a
keystroke outside the recognized set leaves buffer, cursor and scroll
exactly as they were (given the state already satisfied the window
invariant, as every state shown to the user does). -/
theorem C9_editor_invariant (w : Nat) (ch : Int) (st : EdState)
    (hc : st.cursor ≤ st.buffer.length) :
    (∀ st', ed_process w ch st = EdResult.next st' →
      st'.cursor ≤ st'.buffer.length ∧ st'.scroll ≤ st'.cursor ∧
      st'.cursor ≤ st'.scroll + ed_loop_visible w - 1) ∧
    (recognizedKey ch = false → st.scroll ≤ st.cursor →
      st.cursor ≤ st.scroll + ed_loop_visible w - 1 →
      ed_process w ch st = EdResult.next st) := by
  constructor
  · intro st' heq
    unfold ed_process at heq
    split_ifs at heq with h1 h2 h3 h3a h4 h5 h6 h7
    · cases heq
      refine ed_next_inv w _ ?_
      show st.cursor - 1 ≤ (st.buffer.eraseIdx (st.cursor - 1)).length
      rw [List.length_eraseIdx]
      rw [if_pos (by omega)]
      omega
    · cases heq
      exact ed_next_inv w st hc
    · cases heq
      refine ed_next_inv w _ ?_
      show st.cursor - 1 ≤ st.buffer.length
      omega
    · cases heq
      refine ed_next_inv w _ ?_
      show st.cursor + 1 ≤ st.buffer.length
      exact h5.2
    · cases heq
      refine ed_next_inv w _ ?_
      show st.cursor + 1 ≤ (st.buffer.insertIdx st.cursor (Char.ofNat ch.toNat)).length
      rw [List.length_insertIdx st.cursor st.buffer hc]
      omega
    · cases heq
      exact ed_next_inv w st hc
  · intro hrec hsc hwin
    have hr := hrec
    simp only [recognizedKey, Bool.or_eq_false_iff, Bool.and_eq_false_iff,
      decide_eq_false_iff_not, and_assoc] at hr
    obtain ⟨n10, n13, n27, n8, n127, n263, n260, n261, n9, n266, nrange⟩ := hr
    have hrange : ¬ (32 ≤ ch ∧ ch ≤ 126) := fun hcon =>
      nrange.elim (fun hx => hx hcon.1) (fun hx => hx hcon.2)
    unfold ed_process
    rw [if_neg (fun hcon => hcon.elim n10 n13),
        if_neg n27,
        if_neg (fun hcon => hcon.elim n8 (fun hcon2 => hcon2.elim n127 n263)),
        if_neg (fun hcon => n260 hcon.1),
        if_neg (fun hcon => n261 hcon.1),
        if_neg (fun hcon => hcon.elim n9 n266),
        if_neg hrange,
        adjust_scroll_id (ed_loop_visible w) st hsc hwin]

/-- C9 witness: inserting a letter in a two-character buffer. -/
theorem C9_witness :
    (2 : Nat) ≤ (['a', 'a', 'b'] : List Char).length ∧ (0 : Nat) ≤ 2 ∧
      (2 : Nat) ≤ 0 + ed_loop_visible 5 - 1 :=
  (C9_editor_invariant 5 97 ⟨['a', 'b'], 1, 0⟩ (by decide)).1 ⟨['a', 'a', 'b'], 2, 0⟩
    (by decide)
end Logue
